import Mathlib

/-!
# SimRT: verification of the scheduling-analyzer core

Shallow embedding of the SimRT real-time scheduling analyzer
(task model, platform model, preemptive speed-ranked processor resource,
simulator run loop, demand-bound sufficient test, analyzer, task-subset
selection), with theorems settling the specification claims.

Time values (`SimTime` in the source) are embedded as rationals `ℚ`.
Python exceptions are embedded as `Except PyErr`.
-/

namespace SimRT

/-- Kinds of Python exceptions that the embedded code can raise. -/
inductive PyErr where
  | assertionError
  | valueError
  | attributeError
  | indexError
  deriving Repr, DecidableEq

/-- Embedding of Python `max(...)` applied to a realized sequence: raises
`ValueError` on an empty sequence, otherwise returns the maximum. -/
def pyMax {α : Type} [LinearOrder α] : List α → Except PyErr α
  | [] => .error .valueError
  | x :: xs => .ok (xs.foldl max x)

/-! ## Task model (src/simRT/core/task.py) -/

/-- Embeds `TaskInfo` from `src/simRT/core/task.py` (frozen dataclass).
The `type` tag is omitted: the only admissible value is `PeriodicTask`
(`task_from_info` asserts this). -/
structure TaskInfo where
  id : ℕ
  wcet : ℚ
  deadline : ℚ
  period : ℚ
  deriving Repr, DecidableEq

/-- Embeds the `utilization` property of `TaskInfo`
(src/simRT/core/task.py): `wcet / period`. -/
def TaskInfo.utilization (τ : TaskInfo) : ℚ :=
  τ.wcet / τ.period

/-- Embeds the Python attribute lookup of `density` on
`simRT.core.task.TaskInfo`: `src/simRT/core/task.py` defines no `density`
property (its only derived property is `utilization`), so the lookup finds
nothing and an access raises `AttributeError`. -/
def TaskInfo.densityAttr : Option (TaskInfo → ℚ) := none

/-- Modelled from the spec: `simrt/core/task.py` — the `TaskInfo` module
imported by `src/simrt/utils/schedulability_test.py`,
`src/simrt/utils/schedulability_analyzer.py` and `src/tests/test_task.py` —
is missing from `src/`; per spec §3, "`density = wcet/deadline`" (and
`src/tests/test_task.py`, which asserts `task_info.density == 10 / 15` for
wcet 10, deadline 15). -/
def TaskInfo.density (τ : TaskInfo) : ℚ :=
  τ.wcet / τ.deadline

/-! ## Platform model (src/simRT/core/processor.py, `PlatformInfo`) -/

/-- Embeds `PlatformInfo.__post_init__` from `src/simRT/core/processor.py`:
an empty `speed_list` gets `1` appended; the list is sorted in descending
order (`sort(reverse=True)`, a stable descending sort); if the last (i.e.
smallest) element is `≤ 0` a `ValueError` is raised. Returns the stored
`speed_list`. -/
def PlatformInfo.postInit (speed_list : List ℚ) : Except PyErr (List ℚ) :=
  let l := if speed_list = [] then [(1 : ℚ)] else speed_list
  let s := l.insertionSort (fun a b => b ≤ a)
  if s.getLast?.getD 0 ≤ 0 then .error .valueError else .ok s

/-- A constructed platform, as stored after `__post_init__`:
`speed_list` is the stored (descending) speed vector. -/
structure PlatformInfo where
  speed_list : List ℚ
  deriving Repr, DecidableEq

/-- Embeds the `S_m` property of `PlatformInfo`: the sum of the speeds. -/
def PlatformInfo.S_m (p : PlatformInfo) : ℚ := p.speed_list.sum

/-! ## Demand-bound functions
(src/simRT/utils/schedulability.py and src/simrt/utils/schedulability_test.py) -/

/-- Embeds the hyper-period computation `math.lcm(*[math.ceil(tau.period)
for tau in Gamma])` used by `Schedulability.LOAD` and `GlobalEDFTest._LOAD`,
and equally the incremental computation kept by `Simulator.add_task` in
`src/simRT/core/model.py` (`lcm` starting from `1`). Python's `math.lcm`
takes absolute values, whence `natAbs`. -/
def hyperPeriod (Γ : List TaskInfo) : ℕ :=
  Γ.foldl (fun h τ => Nat.lcm h (Int.ceil τ.period).natAbs) 1

/-- Embeds `Schedulability.DBF` from `src/simRT/utils/schedulability.py`,
textually identical to `GlobalEDFTest._DBF` in
`src/simrt/utils/schedulability_test.py`:
`wcet` if `Δ < deadline`, else `max(0, (⌊(Δ − deadline)/period⌋ + 1)·wcet)`. -/
def DBF (τ : TaskInfo) (Δ : ℚ) : ℚ :=
  if τ.deadline ≤ Δ then
    max 0 ((((Int.floor ((Δ - τ.deadline) / τ.period)) + 1 : ℤ) : ℚ) * τ.wcet)
  else
    τ.wcet

/-- Embeds Python `range(1, H + 1, step)` for `step ≥ 1`: the sampled values
of `Δ` used by the `LOAD` loops. (Python raises for `step = 0`; callers
guard.) -/
def pyRange1 (H step : ℕ) : List ℕ :=
  List.range' 1 ((H + step - 1) / step) step

/-- One summand of the `LOAD` maximization:
`sum(DBF(tau, delta_t) for tau in Gamma) / delta_t`. -/
def loadAt (Γ : List TaskInfo) (Δ : ℚ) : ℚ :=
  (Γ.map (fun τ => DBF τ Δ)).sum / Δ

/-- Embeds `Schedulability.LOAD` from `src/simRT/utils/schedulability.py`:
step is `ceil(hyper_period / 10000)`; the load is the running maximum of
`loadAt` over `range(1, hyper_period + 1, step)` starting from `0`.
A zero step makes Python's `range` raise `ValueError`. -/
def Schedulability.LOAD (Γ : List TaskInfo) : Except PyErr ℚ :=
  let H := hyperPeriod Γ
  let step := (Int.ceil ((H : ℚ) / 10000)).toNat
  if step = 0 then .error .valueError
  else .ok ((pyRange1 H step).foldl (fun load (Δ : ℕ) => max load (loadAt Γ (Δ : ℚ))) 0)

/-- Embeds `varphi_max = max(tau.density for tau in Gamma)` as evaluated on
the `TaskInfo` of `src/simRT/core/task.py`: Python's `max` raises
`ValueError` on an empty sequence before touching any element; on a
non-empty sequence the first attribute access `tau.density` consults
`TaskInfo.densityAttr` and raises `AttributeError` when absent. -/
def Schedulability.varphiMax (Γ : List TaskInfo) : Except PyErr ℚ :=
  match Γ with
  | [] => .error .valueError
  | _ :: _ =>
    match TaskInfo.densityAttr with
    | some f => pyMax (Γ.map f)
    | none => .error .attributeError

/-- Embeds `lambda_pi = max(sum(speed_list[i+1:]) / speed_list[i] for i in
range(0, len(speed_list) - 1))` (identical in both sufficient tests). -/
def lambdaPi (p : PlatformInfo) : Except PyErr ℚ :=
  pyMax ((List.range (p.speed_list.length - 1)).map
    (fun i => (p.speed_list.drop (i + 1)).sum / p.speed_list.getD i 0))

/-- Embeds `[i + 1 for i in range(0, len(speed_list)) if sum(speed_list[i:])
< mu]`, the candidate list whose Python `max` produces `v` (identical in both
sufficient tests). -/
def nuList (p : PlatformInfo) (mu : ℚ) : List ℕ :=
  ((List.range p.speed_list.length).filter
    (fun i => decide ((p.speed_list.drop i).sum < mu))).map (· + 1)

/-- Embeds `Schedulability.G_EDF_sufficient_test` from
`src/simRT/utils/schedulability.py`, evaluated on the `TaskInfo` of
`src/simRT/core/task.py` (which has no `density` attribute): assert
multi-core; `varphi_max` (raises on this revision); `lambda_pi`; `mu`;
`v = max(nuList)`; `load`; verdict `mu - v * varphi_max >= load`. -/
def Schedulability.G_EDF_sufficient_test (Γ : List TaskInfo) (p : PlatformInfo) :
    Except PyErr Bool :=
  if 1 < p.speed_list.length then
    match Schedulability.varphiMax Γ with
    | .error e => .error e
    | .ok varphi_max =>
      match lambdaPi p with
      | .error e => .error e
      | .ok lambda_pi =>
        let mu := p.S_m - lambda_pi * varphi_max
        match pyMax (nuList p mu) with
        | .error e => .error e
        | .ok v =>
          match Schedulability.LOAD Γ with
          | .error e => .error e
          | .ok load => .ok (decide (load ≤ mu - (v : ℚ) * varphi_max))
  else .error .assertionError

/-- Embeds `GlobalEDFTest._LOAD` from
`src/simrt/utils/schedulability_test.py`: for `implicit_deadline` a single
evaluation at `Δ = hyper_period`; otherwise the running maximum over
`range(1, hyper_period + 1, ceil(hyper_period * sampling_rate))` starting
from `0`. A zero step makes Python's `range` raise `ValueError`. -/
def GlobalEDFTest._LOAD (Γ : List TaskInfo) (implicit_deadline : Bool)
    (sampling_rate : ℚ) : Except PyErr ℚ :=
  let H := hyperPeriod Γ
  if implicit_deadline then
    .ok (loadAt Γ (H : ℚ))
  else
    let step := (Int.ceil ((H : ℚ) * sampling_rate)).toNat
    if step = 0 then .error .valueError
    else .ok ((pyRange1 H step).foldl (fun load (Δ : ℕ) => max load (loadAt Γ (Δ : ℚ))) 0)

/-- Embeds `varphi_max = max(tau.density for tau in taskset)` as evaluated by
`GlobalEDFTest.test` in `src/simrt/utils/schedulability_test.py`, whose
`TaskInfo` (the missing `simrt/core/task.py`) carries the spec-modelled
`density`. -/
def GlobalEDFTest.varphiMax (Γ : List TaskInfo) : Except PyErr ℚ :=
  pyMax (Γ.map TaskInfo.density)

/-- Embeds `GlobalEDFTest.test` from
`src/simrt/utils/schedulability_test.py`: assert multi-core; `varphi_max`;
`lambda_pi`; `mu`; `v = max(nuList)`; `implicit_deadline` iff every task has
`deadline == period`; `load = _LOAD(...)`; verdict
`mu - v * varphi_max >= load`. -/
def GlobalEDFTest.test (sampling_rate : ℚ) (taskset : List TaskInfo)
    (p : PlatformInfo) : Except PyErr Bool :=
  if 1 < p.speed_list.length then
    match GlobalEDFTest.varphiMax taskset with
    | .error e => .error e
    | .ok varphi_max =>
      match lambdaPi p with
      | .error e => .error e
      | .ok lambda_pi =>
        let mu := p.S_m - lambda_pi * varphi_max
        match pyMax (nuList p mu) with
        | .error e => .error e
        | .ok v =>
          let implicit_deadline := taskset.all (fun τ => decide (τ.deadline = τ.period))
          match GlobalEDFTest._LOAD taskset implicit_deadline sampling_rate with
          | .error e => .error e
          | .ok load => .ok (decide (load ≤ mu - (v : ℚ) * varphi_max))
  else .error .assertionError

/-! ## Analyzer (src/simrt/utils/schedulability_analyzer.py) -/

/-- A schedulability test as the analyzer sees it: a callable returning a
boolean verdict for a task set on a platform (spec scenario 6 observes it
through a test double). -/
abbrev SchedTest := List TaskInfo → PlatformInfo → Bool

/-- Embeds the dict returned by `SchedulabilityAnalyzer.analyze`. -/
structure AnalyzeResult where
  exact_test_result : Option Bool
  suff_test_result : Option Bool
  deriving Repr, DecidableEq

/-- Embeds `SchedulabilityAnalyzer.analyze` from
`src/simrt/utils/schedulability_analyzer.py`. The second component of the
result records whether `exact_test.test(...)` was invoked (the observable of
spec scenario 6). Structure: assert at least one test is configured; run the
sufficient test if present; if its verdict is `True`, return both fields
`True` without touching the exact test; otherwise run the exact test if
present and return its verdict. -/
def SchedulabilityAnalyzer.analyze (sufficient_test exact_test : Option SchedTest)
    (taskset : List TaskInfo) (platform : PlatformInfo) :
    Except PyErr (AnalyzeResult × Bool) :=
  if sufficient_test.isNone && exact_test.isNone then .error .assertionError
  else
    let suff_test_result := sufficient_test.map (fun t => t taskset platform)
    if suff_test_result = some true then
      .ok (⟨some true, some true⟩, false)
    else
      let exact_test_result := exact_test.map (fun t => t taskset platform)
      .ok (⟨exact_test_result, suff_test_result⟩, exact_test.isSome)

/-! ## Preemptive speed-ranked resource (src/simRT/core/processor.py) -/

/-- Embeds `ProcessorRequest` (src/simRT/core/processor.py). `rid` stands for
Python object identity (requests are distinct objects; `in`/`index`/`remove`
compare by identity since `Request` defines no `__eq__`). `priority` and
`time` are the constructor arguments; `key = (priority, time, not preempt)`. -/
structure ProcessorRequest where
  rid : ℕ
  priority : ℚ
  time : ℚ
  preempt : Bool
  deriving Repr, DecidableEq

/-- The sort key of a request, `(self.priority, self.time, not self.preempt)`,
compared lexicographically (Python tuple comparison, `False < True`). -/
def ProcessorRequest.lexKey (r : ProcessorRequest) : ℚ ×ₗ (ℚ ×ₗ Bool) :=
  toLex (r.priority, toLex (r.time, !r.preempt))

/-- Embeds `ProcessorRequest.__le__`: comparison of the keys. -/
def keyLe (a b : ProcessorRequest) : Prop := a.lexKey ≤ b.lexKey

/-- Embeds `ProcessorRequest.__lt__`: strict comparison of the keys. -/
def keyLt (a b : ProcessorRequest) : Prop := a.lexKey < b.lexKey

instance : DecidableRel keyLe := fun a b =>
  inferInstanceAs (Decidable (a.lexKey ≤ b.lexKey))

instance : DecidableRel keyLt := fun a b =>
  inferInstanceAs (Decidable (a.lexKey < b.lexKey))

/-- Embeds `SortedQueue.append` (src/simRT/core/processor.py) acting on an
already key-sorted queue: `list.append(item)` followed by the stable
`list.sort()` places `item` after every element whose key is `≤` its own and
before the first element with a strictly greater key. (The `maxlen` overflow
check never fires on `users`: `_do_put` only appends after ensuring
`len(users) < capacity = maxlen`.) -/
def SortedQueue.append : List ProcessorRequest → ProcessorRequest → List ProcessorRequest
  | [], e => [e]
  | x :: xs, e => if keyLe x e then x :: SortedQueue.append xs e else e :: x :: xs

/-- Embeds `bisect_right(self.users, event)`: on a key-sorted list this is
the number of elements whose key is `≤` the event's key. -/
def bisect_right (users : List ProcessorRequest) (e : ProcessorRequest) : ℕ :=
  users.countP (fun u => decide (keyLe u e))

/-- Result of `ProcessorPlatform._do_put`: the new `users` queue, whether the
event was granted (`event.succeed()` ran inside `Resource._do_put`), whether
the method returned `False` (stopping the `put_queue` traversal), and the
holders that were delivered a `Preempted` interrupt. -/
structure PutResult where
  users : List ProcessorRequest
  granted : Bool
  stoppedScan : Bool
  interrupted : List ProcessorRequest
  deriving Repr, DecidableEq

/-- Embeds `ProcessorPlatform._do_put` (src/simRT/core/processor.py):
`index = bisect_right(users, event)`; if `index >= capacity` return `False`
(no interrupts, queue untouched); otherwise interrupt `users[index:]`, pop
the last holder when `len(users) == capacity and event.preempt`, and run
`Resource._do_put`: append (sorted) and succeed iff `len(users) < capacity`. -/
def ProcessorPlatform.doPut (capacity : ℕ) (users : List ProcessorRequest)
    (event : ProcessorRequest) : PutResult :=
  let index := bisect_right users event
  if capacity ≤ index then
    ⟨users, false, true, []⟩
  else
    let preempted := users.drop index
    let users1 := if users.length = capacity ∧ event.preempt = true then users.dropLast else users
    if users1.length < capacity then
      ⟨SortedQueue.append users1 event, true, false, preempted⟩
    else
      ⟨users1, false, false, preempted⟩

/-- Embeds `ProcessorPlatform._do_get` (src/simRT/core/processor.py) composed
with `Resource._do_get`: if the released request is currently a holder, every
holder ranked after it is delivered a `Preempted` interrupt (second
component); then `users.remove(request)` removes the first occurrence (a
missing request is ignored, `try ... except ValueError: pass`). -/
def ProcessorPlatform.doGet (users : List ProcessorRequest)
    (request : ProcessorRequest) : List ProcessorRequest × List ProcessorRequest :=
  match users.findIdx? (fun u => u.rid == request.rid) with
  | some idx => (users.eraseP (fun u => u.rid == request.rid), users.drop (idx + 1))
  | none => (users, [])

/-- Embeds the `speed` property of `ProcessorRequest` for a request that is
either a holder or preempted: a holder reads
`speed_list[users.index(self)]`; a request absent from `users` that was
granted before is `Preempted` and reads `None`. (The `Ready` state, which
reads `0`, lives in the put queue and is not consulted by the claims.) -/
def ProcessorRequest.speed (speed_list : List ℚ) (users : List ProcessorRequest)
    (r : ProcessorRequest) : Option ℚ :=
  match users.findIdx? (fun u => u.rid == r.rid) with
  | some idx => speed_list.get? idx
  | none => none

/-- States of the holder queue reachable in a simulation: initially empty
(`SortedQueue(maxlen=...)`), then mutated only by `_do_put` of a fresh
request (a new Python object, hence a fresh identity) and by `_do_get`. -/
inductive Reach (capacity : ℕ) : List ProcessorRequest → Prop where
  | init : Reach capacity []
  | put {users : List ProcessorRequest} {event : ProcessorRequest} :
      Reach capacity users → (∀ u ∈ users, u.rid ≠ event.rid) →
      Reach capacity (ProcessorPlatform.doPut capacity users event).users
  | get {users : List ProcessorRequest} {request : ProcessorRequest} :
      Reach capacity users →
      Reach capacity (ProcessorPlatform.doGet users request).1

/-! ## Simulator run loop (src/simRT/core/model.py) -/

/-- Embeds the cutoff normalization in `Simulator.run`:
`if until is None or until > self.hyper_period: until = self.hyper_period`. -/
def Simulator.effectiveUntil (H : ℕ) (untilArg : Option ℚ) : ℚ :=
  match untilArg with
  | none => (H : ℚ)
  | some t => if (H : ℚ) < t then (H : ℚ) else t

/-- Embeds the loop bounds `range(math.floor(self.env.now) + 1,
math.ceil(until) + 1)` of `Simulator.run` on a fresh simulator
(`env.now = 0`): the successive integer bounds passed to `env.run`. -/
def Simulator.loopSteps (H : ℕ) (untilArg : Option ℚ) : List ℕ :=
  List.range' 1 (Int.ceil (Simulator.effectiveUntil H untilArg)).toNat

/-- The virtual time up to which the loop of `Simulator.run` drives the
event engine: the bound of the last `env.run(until=i)` call, `0` when the
loop body never runs. -/
def Simulator.finalTime (H : ℕ) (untilArg : Option ℚ) : ℚ :=
  (((Simulator.loopSteps H untilArg).getLastD 0 : ℕ) : ℚ)

/-- Embeds the `try` body of `Simulator.run`: run the engine to each bound in
turn; an interrupt propagating out of `env.run(until=i)` aborts the loop.
The engine (simpy, an external dependency) is abstracted as an oracle giving
for each integer bound the cause of the interrupt that `env.run` lets
propagate, if any. -/
def Simulator.runBody (engine : ℕ → Option String) : List ℕ → Except String Unit
  | [] => .ok ()
  | i :: rest =>
    match engine i with
    | some c => .error c
    | none => Simulator.runBody engine rest

/-- Embeds `Simulator.run` (src/simRT/core/model.py): the loop wrapped in
`try ... except simpy.Interrupt: return False`, returning `True` when no
interrupt propagates. The result type `Except String Bool` records that the
caller can also observe an escaping exception — which the `except` clause
makes impossible. -/
def Simulator.run (H : ℕ) (engine : ℕ → Option String) (untilArg : Option ℚ) :
    Except String Bool :=
  match Simulator.runBody engine (Simulator.loopSteps H untilArg) with
  | .error _ => .ok false
  | .ok _ => .ok true

/-! ## Job lifecycle (src/simRT/core/job.py) -/

/-- Embeds `Job.remaining_execution`: `max(wcet - accumulated_execution, 0)`. -/
def remaining_execution (wcet accumulated : ℚ) : ℚ :=
  max (wcet - accumulated) 0

/-- One holding episode of a job inside the execute loop of
`Job.activate_job`: the job occupies a slot from `start` at `speed`; either
the pending timeout of `remaining / speed` elapses (`interruptedAt = none`)
or the episode ends with a `Preempted` interrupt at the given instant. -/
structure ExecSeg where
  start : ℚ
  speed : ℚ
  interruptedAt : Option ℚ
  deriving Repr, DecidableEq

/-- Outcome of a job inside one simulation run: either the job completed at
`endTime` (and `missRaised` tells whether it raised the deadline-miss
interrupt into its task) or the run horizon arrived with the job still
executing, `accumulated` being its accumulated execution. -/
inductive JobOutcome where
  | completed (endTime : ℚ) (missRaised : Bool)
  | runningAtHorizon (accumulated : ℚ)
  deriving Repr, DecidableEq

/-- Embeds the execute loop and completion path of `Job.activate_job`
(src/simRT/core/job.py, lines 78–116) over the job's holding episodes:
an uninterrupted timeout fires at `start + remaining/speed`, the accumulator
snaps to `wcet` and the job completes — raising the deadline-miss interrupt
into its task iff `env.now > absolute_deadline` (strict); an interrupted
episode adds `(now - start) * speed` to the accumulator and the job
re-requests; a job whose episodes are exhausted by the run horizon is still
executing and raises nothing. -/
def activateJob (wcet deadline : ℚ) : ℚ → List ExecSeg → JobOutcome
  | accumulated, [] => .runningAtHorizon accumulated
  | accumulated, seg :: rest =>
    match seg.interruptedAt with
    | none =>
      let endTime := seg.start + remaining_execution wcet accumulated / seg.speed
      .completed endTime (decide (deadline < endTime))
    | some t => activateJob wcet deadline (accumulated + (t - seg.start) * seg.speed) rest

/-- Completion time of a job outcome, `None` while still executing
(the job's `_end_time`). -/
def JobOutcome.endTime? : JobOutcome → Option ℚ
  | .completed t _ => some t
  | .runningAtHorizon _ => none

/-- Whether the outcome raised the deadline-miss interrupt
(`self.task.interrupt(...)` in `Job.activate_job`, the only interrupt
directed at a task in the code base). -/
def JobOutcome.missRaised : JobOutcome → Bool
  | .completed _ m => m
  | .runningAtHorizon _ => false

/-- Engine oracle for a simulation of one periodic task on one core whose
first job is never preempted (later jobs of the task carry later absolute
deadlines, so their requests rank behind the holder and `_do_put` stops the
scan without touching it). The only interrupt that can reach the `run`
boundary is the deadline-miss raised at the job's completion, so
`env.run(until=i)` propagates an interrupt iff the job completes with a miss
at a time `≤ i`. -/
def singleJobEngine (wcet deadline speed : ℚ) (i : ℕ) : Option String :=
  match activateJob wcet deadline 0 [⟨0, speed, none⟩] with
  | .completed t m => if t ≤ (i : ℚ) ∧ m = true then some "miss deadline" else none
  | .runningAtHorizon _ => none

/-! ## Task-subset selection (src/simrt/generator/taskset_generator.py) -/

/-- Embeds `bisect.bisect_left(a, x)` on a sorted list: the number of
elements strictly below `x`. -/
def bisect_left (a : List ℚ) (x : ℚ) : ℕ :=
  a.countP (fun y => decide (y < x))

/-- Embeds `TaskSubsetFactory._select_task`
(src/simrt/generator/taskset_generator.py): assert the target is positive;
`index = bisect_left(task_utilizations, target)`. The `if index == 0`
assignment is dead code — the following `if index == len(tasks)` has no
`elif`, so its `else` branch runs whenever `index < len(tasks)` and
overwrites `selected_task`; in that branch Python's `tasks[index - 1]` wraps
to `tasks[-1]` (the last task) when `index = 0`, and
`min([after, before], key=...)` returns `after` on a tie. -/
def TaskSubsetFactory.selectTask (tasks : List TaskInfo) (target_utilization : ℚ) :
    Except PyErr TaskInfo :=
  if 0 < target_utilization then
    let index := bisect_left (tasks.map TaskInfo.utilization) target_utilization
    if index = tasks.length then
      match tasks.getLast? with
      | some τ => .ok τ
      | none => .error .indexError
    else
      let bIdx := if index = 0 then tasks.length - 1 else index - 1
      match tasks.get? bIdx, tasks.get? index with
      | some before, some after =>
        .ok (if |after.utilization - target_utilization| ≤
              |before.utilization - target_utilization| then after else before)
      | _, _ => .error .indexError
  else .error .assertionError

/-! ## Helper lemmas -/

lemma range'_getLastD (d s n : ℕ) : (List.range' s (n + 1)).getLastD d = s + n := by
  induction n generalizing s d with
  | zero => simp [List.range'_succ, List.range']
  | succ k ih =>
    rw [List.range'_succ, List.getLastD_cons, ih]
    omega

lemma finalTime_eq (H : ℕ) (untilArg : Option ℚ) :
    Simulator.finalTime H untilArg =
      (((Int.ceil (Simulator.effectiveUntil H untilArg)).toNat : ℕ) : ℚ) := by
  unfold Simulator.finalTime Simulator.loopSteps
  rcases n : (Int.ceil (Simulator.effectiveUntil H untilArg)).toNat with _ | k
  · simp [List.range']
  · rw [range'_getLastD]
    congr 1
    omega

lemma runBody_ok_iff (engine : ℕ → Option String) (l : List ℕ) :
    Simulator.runBody engine l = .ok () ↔ ∀ i ∈ l, engine i = none := by
  induction l with
  | nil => simp [Simulator.runBody]
  | cons i rest ih =>
    simp only [Simulator.runBody, List.mem_cons]
    rcases h : engine i with _ | c
    · simp only [ih]
      constructor
      · rintro hr j (rfl | hj)
        · exact h
        · exact hr j hj
      · intro hr j hj
        exact hr j (Or.inr hj)
    · constructor
      · intro hr
        cases hr
      · intro hr
        exact absurd h (by simp [hr i (Or.inl rfl)])

/-- Claim C1. Amended behavior of `Simulator.run`: (1) no exception ever
escapes to the caller — the result is always a boolean verdict; (2) the
verdict is `false` iff a deadline-miss interrupt propagates out of one of
the `env.run` calls of the loop; (3) the loop drives the event engine to
`⌈min(T, hyper_period)⌉` (clamped at `0`) rather than to `min(T,
hyper_period)` itself, and to `hyper_period` exactly when no cutoff is
given. -/
theorem Simulator.run_boundary_behavior (H : ℕ) (engine : ℕ → Option String)
    (untilArg : Option ℚ) :
    (∃ b, Simulator.run H engine untilArg = .ok b) ∧
    (Simulator.run H engine untilArg = .ok false ↔
      ∃ i ∈ Simulator.loopSteps H untilArg, engine i ≠ none) ∧
    (∀ t : ℚ, Simulator.finalTime H (some t) =
      (((Int.ceil (min t (H : ℚ))).toNat : ℕ) : ℚ)) ∧
    Simulator.finalTime H none = (H : ℚ) := by
  refine ⟨?_, ?_, ?_, ?_⟩
  · unfold Simulator.run
    rcases Simulator.runBody engine (Simulator.loopSteps H untilArg) with _ | _
    · exact ⟨false, rfl⟩
    · exact ⟨true, rfl⟩
  · unfold Simulator.run
    rcases hb : Simulator.runBody engine (Simulator.loopSteps H untilArg) with c | u
    · simp only [true_iff]
      by_contra hne
      push_neg at hne
      have hok : Simulator.runBody engine (Simulator.loopSteps H untilArg) = .ok () := by
        rw [runBody_ok_iff]
        intro i hi
        have := hne i hi
        simpa using this
      rw [hok] at hb
      exact absurd hb (by simp)
    · cases u
      have hall := (runBody_ok_iff engine (Simulator.loopSteps H untilArg)).mp hb
      constructor
      · intro h
        exact absurd h (by simp)
      · rintro ⟨i, hi, hne⟩
        exact absurd (hall i hi) hne
  · intro t
    rw [finalTime_eq]
    have heff : Simulator.effectiveUntil H (some t) = min t (H : ℚ) := by
      simp only [Simulator.effectiveUntil]
      rcases le_or_lt t (H : ℚ) with h | h
      · rw [if_neg (not_lt.mpr h), min_eq_left h]
      · rw [if_pos h, min_eq_right h.le]
    rw [heff]
  · rw [finalTime_eq]
    unfold Simulator.effectiveUntil
    rw [Int.ceil_natCast, Int.toNat_natCast]

/-- Claim C1, counterexample to the claim as stated: with hyper-period `2`
and cutoff `T = 1/2`, the loop of `Simulator.run` drives the event engine to
`⌈1/2⌉ = 1`, not to `min(T, hyper_period) = 1/2`. -/
theorem Simulator.run_cutoff_not_min :
    Simulator.finalTime 2 (some (1 / 2)) = 1 ∧
    Simulator.finalTime 2 (some (1 / 2)) ≠ min ((1 : ℚ) / 2) 2 := by
  have he : Simulator.effectiveUntil 2 (some (1 / 2)) = 1 / 2 := by
    simp only [Simulator.effectiveUntil]
    norm_num
  have hc : (⌈((1 : ℚ) / 2)⌉ : ℤ) = 1 := by
    rw [Int.ceil_eq_iff]
    norm_num
  have h1 : Simulator.finalTime 2 (some (1 / 2)) = 1 := by
    rw [finalTime_eq, he, hc]
    norm_num
  refine ⟨h1, ?_⟩
  rw [h1, min_eq_left (by norm_num : (1 : ℚ) / 2 ≤ 2)]
  norm_num

/-- Claim C2. Evaluation of the code at the failing input: on the `TaskInfo`
of `src/simRT/core/task.py` — which defines no `density` property — the
sufficient test `Schedulability.G_EDF_sufficient_test` raises
`AttributeError` at `varphi_max = max(tau.density for tau in Gamma)` for
every non-empty task set, here the task of `src/tests/test_task.py`
(wcet 10, deadline 15, period 20) on the two-core platform `[1, 0.5]`. -/
theorem Schedulability.sufficient_test_density_attribute_error :
    Schedulability.G_EDF_sufficient_test [⟨2, 10, 15, 20⟩] ⟨[1, 1 / 2]⟩ =
      .error .attributeError ∧
    TaskInfo.densityAttr = none := by
  exact ⟨rfl, rfl⟩

/-- Claim C3. The analyzer always runs the sufficient test when configured;
a `true` sufficient verdict forces both record fields to `true` without
invoking the exact test (second component `false`); a `false` or absent
sufficient verdict makes the analyzer invoke the configured exact test
(second component `true`) and return its verdict. -/
theorem SchedulabilityAnalyzer.analyze_short_circuit
    (sufficient_test exact_test : Option SchedTest) (taskset : List TaskInfo)
    (platform : PlatformInfo) :
    (∀ f, sufficient_test = some f → f taskset platform = true →
      SchedulabilityAnalyzer.analyze sufficient_test exact_test taskset platform =
        .ok (⟨some true, some true⟩, false)) ∧
    (∀ g, exact_test = some g →
      (sufficient_test = none ∨
        ∃ f, sufficient_test = some f ∧ f taskset platform = false) →
      SchedulabilityAnalyzer.analyze sufficient_test exact_test taskset platform =
        .ok (⟨some (g taskset platform),
              sufficient_test.map (fun f => f taskset platform)⟩, true)) := by
  constructor
  · intro f hf ht
    subst hf
    simp [SchedulabilityAnalyzer.analyze, ht]
  · intro g hg hcase
    subst hg
    rcases hcase with hnone | ⟨f, hf, hfalse⟩
    · subst hnone
      simp [SchedulabilityAnalyzer.analyze]
    · subst hf
      simp [SchedulabilityAnalyzer.analyze, hfalse]

/-- Claim C3, witness: a sufficient-test double returning `true` forces the
record `{exact: true, suff: true}` and the exact-test double is not
invoked. -/
theorem SchedulabilityAnalyzer.analyze_short_circuit_witness :
    SchedulabilityAnalyzer.analyze (some (fun _ _ => true)) (some (fun _ _ => false))
      [] ⟨[1]⟩ = .ok (⟨some true, some true⟩, false) :=
  (SchedulabilityAnalyzer.analyze_short_circuit _ _ [] ⟨[1]⟩).1 _ rfl rfl

/-- In a descending-sorted list the last element is a lower bound. -/
lemma getLast_le_of_mem {s : List ℚ} (hs : s.Pairwise (fun a b : ℚ => b ≤ a))
    {x : ℚ} (hx : x ∈ s) (h : s ≠ []) : s.getLast h ≤ x := by
  induction s with
  | nil => cases hx
  | cons y ys ih =>
    by_cases hys : ys = []
    · subst hys
      rcases List.mem_singleton.mp hx with rfl
      simp
    · rw [List.getLast_cons hys]
      rcases List.mem_cons.mp hx with rfl | hx'
      · exact (List.pairwise_cons.mp hs).1 _ (List.getLast_mem hys)
      · exact ih (List.pairwise_cons.mp hs).2 hx' hys

/-- Claim C4, amended: for every non-empty speed list, `PlatformInfo`
construction stores the same multiset of speeds sorted non-increasing when
all speeds are positive, and raises `ValueError` when some speed is
non-positive. (The empty list is not rejected; see the counterexample.) -/
theorem PlatformInfo.postInit_valid (l : List ℚ) (hne : l ≠ []) :
    ((∀ x ∈ l, 0 < x) → ∃ s, PlatformInfo.postInit l = .ok s ∧ s.Perm l ∧
        s.Sorted (fun a b : ℚ => b ≤ a)) ∧
    ((∃ x ∈ l, x ≤ 0) → PlatformInfo.postInit l = .error .valueError) := by
  haveI instT : IsTotal ℚ (fun a b : ℚ => b ≤ a) := ⟨fun a b => le_total b a⟩
  haveI instTr : IsTrans ℚ (fun a b : ℚ => b ≤ a) :=
    ⟨fun _ _ _ h1 h2 => le_trans h2 h1⟩
  have hsorted := List.sorted_insertionSort (fun a b : ℚ => b ≤ a) l
  have hperm := List.perm_insertionSort (fun a b : ℚ => b ≤ a) l
  have hsne : l.insertionSort (fun a b : ℚ => b ≤ a) ≠ [] := by
    intro h0
    rw [h0] at hperm
    exact hne hperm.nil_eq.symm
  have hunfold : PlatformInfo.postInit l =
      if (l.insertionSort (fun a b : ℚ => b ≤ a)).getLast?.getD 0 ≤ 0 then
        .error .valueError
      else .ok (l.insertionSort (fun a b : ℚ => b ≤ a)) := by
    simp only [PlatformInfo.postInit, if_neg hne]
  rw [List.getLast?_eq_getLast _ hsne, Option.getD_some] at hunfold
  constructor
  · intro hpos
    have hmem : (l.insertionSort (fun a b : ℚ => b ≤ a)).getLast hsne ∈ l :=
      hperm.mem_iff.mp (List.getLast_mem hsne)
    rw [hunfold, if_neg (not_le.mpr (hpos _ hmem))]
    exact ⟨_, rfl, hperm, hsorted⟩
  · rintro ⟨x, hxl, hx0⟩
    have hxs : x ∈ l.insertionSort (fun a b : ℚ => b ≤ a) := hperm.mem_iff.mpr hxl
    have := getLast_le_of_mem hsorted hxs hsne
    rw [hunfold, if_pos (le_trans this hx0)]

/-- Claim C4, counterexample to the claim as stated: the constructor does
not reject an empty speed list — `__post_init__` silently appends `1` and
stores `[1]`. -/
theorem PlatformInfo.postInit_empty_defaults :
    PlatformInfo.postInit [] = .ok [1] ∧
    PlatformInfo.postInit [] ≠ .error .valueError := by
  have h : PlatformInfo.postInit [] = .ok [1] := rfl
  exact ⟨h, fun hcon => by rw [h] at hcon; cases hcon⟩

/-- Claim C4, witness: `[1, 3, 2]` is stored sorted non-increasing; `[0, 1]`
is rejected. -/
theorem PlatformInfo.postInit_valid_witness :
    (∃ s, PlatformInfo.postInit [1, 3, 2] = .ok s ∧ s.Perm [1, 3, 2] ∧
      s.Sorted (fun a b : ℚ => b ≤ a)) ∧
    PlatformInfo.postInit [0, 1] = .error .valueError := by
  constructor
  · exact (PlatformInfo.postInit_valid [1, 3, 2] (by simp)).1 (by norm_num)
  · exact (PlatformInfo.postInit_valid [0, 1] (by simp)).2 ⟨0, by simp, le_refl 0⟩

/-! ## Lemmas on the LOAD computation -/

lemma init_le_foldl_max (f : ℕ → ℚ) (l : List ℕ) (init : ℚ) :
    init ≤ l.foldl (fun a d => max a (f d)) init := by
  induction l generalizing init with
  | nil => simp
  | cons x xs ih => exact le_trans (le_max_left init (f x)) (ih (max init (f x)))

lemma le_foldl_max {l : List ℕ} {x : ℕ} (hx : x ∈ l) (f : ℕ → ℚ) (init : ℚ) :
    f x ≤ l.foldl (fun a d => max a (f d)) init := by
  induction l generalizing init with
  | nil => cases hx
  | cons y ys ih =>
    rcases List.mem_cons.mp hx with rfl | hx'
    · exact le_trans (le_max_right init (f x)) (init_le_foldl_max f ys _)
    · exact ih hx' _

lemma hyperPeriod_pos (Γ : List TaskInfo) (h : ∀ τ ∈ Γ, 0 < τ.period) :
    0 < hyperPeriod Γ := by
  have key : ∀ (L : List TaskInfo), (∀ τ ∈ L, 0 < τ.period) → ∀ init : ℕ, 0 < init →
      0 < L.foldl (fun a τ => Nat.lcm a (Int.ceil τ.period).natAbs) init := by
    intro L
    induction L with
    | nil =>
      intro _ init hi
      simpa using hi
    | cons τ ts ih =>
      intro hL init hi
      simp only [List.foldl_cons]
      apply ih (fun τ' h' => hL τ' (List.mem_cons_of_mem _ h'))
      have hτ : 0 < τ.period := hL τ (List.mem_cons_self _ _)
      have hceil : 0 < Int.ceil τ.period := Int.ceil_pos.mpr hτ
      exact Nat.lcm_pos hi (Int.natAbs_pos.mpr (ne_of_gt hceil))
  exact key Γ h 1 one_pos

lemma sampling_step_ne_zero (Γ : List TaskInfo) (rate : ℚ)
    (hper : ∀ τ ∈ Γ, 0 < τ.period) (hrate : 0 < rate) :
    (Int.ceil ((hyperPeriod Γ : ℚ) * rate)).toNat ≠ 0 := by
  have hH : 0 < hyperPeriod Γ := hyperPeriod_pos Γ hper
  have hpos : (0 : ℚ) < (hyperPeriod Γ : ℚ) * rate :=
    mul_pos (by exact_mod_cast hH) hrate
  have hc : 0 < Int.ceil ((hyperPeriod Γ : ℚ) * rate) := Int.ceil_pos.mpr hpos
  omega

lemma load_sampled_ok (Γ : List TaskInfo) (rate : ℚ)
    (hstep : (Int.ceil ((hyperPeriod Γ : ℚ) * rate)).toNat ≠ 0) :
    GlobalEDFTest._LOAD Γ false rate =
      .ok ((pyRange1 (hyperPeriod Γ) (Int.ceil ((hyperPeriod Γ : ℚ) * rate)).toNat).foldl
        (fun load (Δ : ℕ) => max load (loadAt Γ (Δ : ℚ))) 0) := by
  simp only [GlobalEDFTest._LOAD, Bool.false_eq_true, if_false, if_neg hstep]

/-- Claim C8, amended: the implicit-deadline fast path of `_LOAD` computes
the single sample `Σ_τ DBF(τ, H) / H`; whenever the sampling step
`⌈H · sampling_rate⌉` is `1` (so that `Δ = H` is among the sampled points)
this value is a lower bound of — but in general not equal to — the maximum
computed by the sampled branch. -/
theorem GlobalEDFTest.load_fast_path_le_sampled (Γ : List TaskInfo) (rate : ℚ)
    (hper : ∀ τ ∈ Γ, 0 < τ.period)
    (himp : ∀ τ ∈ Γ, τ.deadline = τ.period)
    (hstep : (Int.ceil ((hyperPeriod Γ : ℚ) * rate)).toNat = 1) :
    ∃ x y, GlobalEDFTest._LOAD Γ true rate = .ok x ∧
      GlobalEDFTest._LOAD Γ false rate = .ok y ∧ x ≤ y := by
  have hH : 0 < hyperPeriod Γ := hyperPeriod_pos Γ hper
  refine ⟨loadAt Γ (hyperPeriod Γ : ℚ), _,
    by simp [GlobalEDFTest._LOAD], load_sampled_ok Γ rate (by rw [hstep]; omega), ?_⟩
  have hmem : hyperPeriod Γ ∈ pyRange1 (hyperPeriod Γ) (Int.ceil ((hyperPeriod Γ : ℚ) * rate)).toNat := by
    rw [hstep]
    unfold pyRange1
    have hn : (hyperPeriod Γ + 1 - 1) / 1 = hyperPeriod Γ := by omega
    rw [hn]
    rw [List.mem_range'_1]
    omega
  exact le_foldl_max hmem (fun Δ => loadAt Γ (Δ : ℚ)) 0

/-- Claim C8, counterexample to the claim as stated: for the single
implicit-deadline task (wcet 1, deadline 2, period 2) with the default
sampling rate, the fast path gives `DBF(τ, 2)/2 = 1/2` while the sampled
branch maximizes over `Δ ∈ {1, 2}` and returns `1` (because `DBF` returns
`wcet` for `Δ < deadline`, the sample at `Δ = 1` dominates). -/
theorem GlobalEDFTest.load_fast_path_counterexample :
    GlobalEDFTest._LOAD [⟨0, 1, 2, 2⟩] true (1 / 100000) = .ok (1 / 2) ∧
    GlobalEDFTest._LOAD [⟨0, 1, 2, 2⟩] false (1 / 100000) = .ok 1 ∧
    ((1 : ℚ) / 2) ≠ 1 := by
  have hceil2 : (⌈(2 : ℚ)⌉ : ℤ) = 2 := by norm_num
  have hH : hyperPeriod [⟨0, 1, 2, 2⟩] = 2 := by
    simp only [hyperPeriod, List.foldl_cons, List.foldl_nil, hceil2]
    decide
  have hcast2 : ((2 : ℕ) : ℚ) = 2 := by norm_num
  have hstep1 : (Int.ceil ((hyperPeriod [⟨0, 1, 2, 2⟩] : ℚ) * (1 / 100000))).toNat = 1 := by
    rw [hH, hcast2]
    have hce : (⌈(2 : ℚ) * (1 / 100000)⌉ : ℤ) = 1 := by
      rw [Int.ceil_eq_iff]
      norm_num
    rw [hce]
    rfl
  have hd1 : DBF ⟨0, 1, 2, 2⟩ 1 = 1 := by
    rw [DBF, if_neg (by norm_num)]
  have hd2 : DBF ⟨0, 1, 2, 2⟩ 2 = 1 := by
    rw [DBF, if_pos (by norm_num), show ((2 : ℚ) - 2) / 2 = 0 by norm_num]
    norm_num
  refine ⟨?_, ?_, by norm_num⟩
  · simp only [GlobalEDFTest._LOAD, if_true, hH, loadAt, List.map_cons, List.map_nil,
      List.sum_cons, List.sum_nil]
    rw [hcast2, hd2]
    norm_num
  · rw [load_sampled_ok _ _ (by rw [hstep1]; omega), hstep1, hH]
    have hrange : pyRange1 2 1 = [1, 2] := rfl
    rw [hrange]
    simp only [List.foldl_cons, List.foldl_nil, loadAt, List.map_cons, List.map_nil,
      List.sum_cons, List.sum_nil]
    rw [show ((1 : ℕ) : ℚ) = 1 by norm_num, hcast2, hd1, hd2]
    norm_num

/-- Claim C8, witness for the amended theorem at the counterexample's task
set: the fast-path value is bounded by the sampled maximum. -/
theorem GlobalEDFTest.load_fast_path_le_sampled_witness :
    ∃ x y, GlobalEDFTest._LOAD [⟨0, 1, 2, 2⟩] true (1 / 100000) = .ok x ∧
      GlobalEDFTest._LOAD [⟨0, 1, 2, 2⟩] false (1 / 100000) = .ok y ∧ x ≤ y := by
  apply GlobalEDFTest.load_fast_path_le_sampled
  · intro τ hτ
    rcases List.mem_singleton.mp hτ with rfl
    norm_num
  · intro τ hτ
    rcases List.mem_singleton.mp hτ with rfl
    norm_num
  · have hceil2 : (⌈(2 : ℚ)⌉ : ℤ) = 2 := by norm_num
    have hH : hyperPeriod [⟨0, 1, 2, 2⟩] = 2 := by
      simp only [hyperPeriod, List.foldl_cons, List.foldl_nil, hceil2]
      decide
    rw [hH, show ((2 : ℕ) : ℚ) = 2 by norm_num]
    have hce : (⌈(2 : ℚ) * (1 / 100000)⌉ : ℤ) = 1 := by
      rw [Int.ceil_eq_iff]
      norm_num
    rw [hce]
    rfl

/-- Reduction of `GlobalEDFTest.test` past the `varphi_max` and `lambda_pi`
computations. -/
lemma test_reduction (Γ : List TaskInfo) (p : PlatformInfo) (rate φ lam : ℚ)
    (hm : 1 < p.speed_list.length)
    (hφ : GlobalEDFTest.varphiMax Γ = .ok φ)
    (hlam : lambdaPi p = .ok lam) :
    GlobalEDFTest.test rate Γ p =
      (match pyMax (nuList p (p.S_m - lam * φ)) with
       | .error e => .error e
       | .ok v =>
         match GlobalEDFTest._LOAD Γ (Γ.all fun τ => decide (τ.deadline = τ.period)) rate with
         | .error e => .error e
         | .ok load => .ok (decide (load ≤ p.S_m - lam * φ - (v : ℚ) * φ))) := by
  simp only [GlobalEDFTest.test, if_pos hm, hφ, hlam]

/-- Claim C7, amended: `ν` is the Python `max` of the candidate list
`[i+1 : Σ_{j≥i} s_j < μ]`; when that list is non-empty the sufficient test
returns a boolean verdict, but when it is empty the test raises `ValueError`
(Python `max` of an empty list) instead of taking `ν = 0`. -/
theorem GlobalEDFTest.nu_branch (Γ : List TaskInfo) (p : PlatformInfo)
    (rate φ lam : ℚ)
    (hm : 1 < p.speed_list.length)
    (hφ : GlobalEDFTest.varphiMax Γ = .ok φ)
    (hlam : lambdaPi p = .ok lam)
    (hper : ∀ τ ∈ Γ, 0 < τ.period)
    (hrate : 0 < rate) :
    (nuList p (p.S_m - lam * φ) = [] →
      GlobalEDFTest.test rate Γ p = .error .valueError) ∧
    (nuList p (p.S_m - lam * φ) ≠ [] →
      ∃ b, GlobalEDFTest.test rate Γ p = .ok b) := by
  have hred := test_reduction Γ p rate φ lam hm hφ hlam
  constructor
  · intro hempty
    rw [hred, hempty]
    rfl
  · intro hne
    rcases hl : nuList p (p.S_m - lam * φ) with _ | ⟨x, xs⟩
    · exact absurd hl hne
    · rw [hred, hl]
      simp only [pyMax]
      rcases hb : (Γ.all fun τ => decide (τ.deadline = τ.period)) with _ | _
      · rw [load_sampled_ok Γ rate (sampling_step_ne_zero Γ rate hper hrate)]
        exact ⟨_, rfl⟩
      · rw [show GlobalEDFTest._LOAD Γ true rate =
          .ok (loadAt Γ ((hyperPeriod Γ : ℕ) : ℚ)) from by simp [GlobalEDFTest._LOAD]]
        exact ⟨_, rfl⟩

/-- Claim C7, counterexample to the claim as stated: on the two-core
platform `[3, 2]` with the single task (wcet 7, deadline 1, period 7) one
gets `φ_max = 7`, `λ_π = 2/3`, `μ = 1/3`, and no suffix sum of the speeds is
below `μ`, so the candidate list is empty and the test raises `ValueError`
instead of returning a verdict with `ν = 0`. -/
theorem GlobalEDFTest.nu_empty_counterexample :
    GlobalEDFTest.test (1 / 100000) [⟨0, 7, 1, 7⟩] ⟨[3, 2]⟩ = .error .valueError := by
  have hφ : GlobalEDFTest.varphiMax [⟨0, 7, 1, 7⟩] = .ok 7 := by
    norm_num [GlobalEDFTest.varphiMax, pyMax, TaskInfo.density]
  have hlam : lambdaPi ⟨[3, 2]⟩ = .ok (2 / 3) := by
    norm_num [lambdaPi, pyMax, show List.range 1 = [0] from rfl]
  have hred := test_reduction [⟨0, 7, 1, 7⟩] ⟨[3, 2]⟩ (1 / 100000) 7 (2 / 3)
    (by decide) hφ hlam
  rw [hred]
  have hmu : (⟨[3, 2]⟩ : PlatformInfo).S_m - (2 / 3) * 7 = 1 / 3 := by
    norm_num [PlatformInfo.S_m]
  rw [hmu]
  have hnu : nuList ⟨[3, 2]⟩ (1 / 3) = [] := by
    norm_num [nuList, show List.range 2 = [0, 1] from rfl]
  rw [hnu]
  rfl

/-- Claim C7, witness for the amended theorem: on platform `[1, 1/2]` with
the task (wcet 1, deadline 2, period 2) the candidate list is non-empty and
the test returns a verdict. -/
theorem GlobalEDFTest.nu_branch_witness :
    ∃ b, GlobalEDFTest.test (1 / 100000) [⟨0, 1, 2, 2⟩] ⟨[1, 1 / 2]⟩ = .ok b := by
  have hφ : GlobalEDFTest.varphiMax [⟨0, 1, 2, 2⟩] = .ok (1 / 2) := rfl
  have hlam : lambdaPi ⟨[1, 1 / 2]⟩ = .ok (1 / 2) := by
    norm_num [lambdaPi, pyMax, show List.range 1 = [0] from rfl]
  have hnu : nuList ⟨[1, 1 / 2]⟩ ((⟨[1, 1 / 2]⟩ : PlatformInfo).S_m - (1 / 2) * (1 / 2)) = [2] := by
    norm_num [nuList, PlatformInfo.S_m, show List.range 2 = [0, 1] from rfl]
  refine (GlobalEDFTest.nu_branch [⟨0, 1, 2, 2⟩] ⟨[1, 1 / 2]⟩ (1 / 100000) (1 / 2) (1 / 2)
    (by decide) hφ hlam ?_ (by norm_num)).2 ?_
  · intro τ hτ
    rcases List.mem_singleton.mp hτ with rfl
    norm_num
  · rw [hnu]
    simp

/-! ## Lemmas on binary search over a sorted utilization catalog -/

lemma countP_lt_get_iff (l : List ℚ) (t : ℚ) (h : l.Pairwise (· ≤ ·)) :
    ∀ (j : ℕ) (hj : j < l.length),
      (j < l.countP (fun y => decide (y < t)) ↔ l.get ⟨j, hj⟩ < t) := by
  induction l with
  | nil =>
    intro j hj
    exact absurd hj (by simp)
  | cons x xs ih =>
    have hx := (List.pairwise_cons.mp h).1
    have hxs := (List.pairwise_cons.mp h).2
    intro j hj
    rcases j with _ | k
    · simp only [List.countP_cons, List.get]
      by_cases hpx : x < t
      · simp [hpx]
      · have hzero : xs.countP (fun y => decide (y < t)) = 0 := by
          rw [List.countP_eq_zero]
          intro a ha
          simp only [decide_eq_true_eq]
          exact fun halt => hpx (lt_of_le_of_lt (hx a ha) halt)
        simp [hpx, hzero]
    · have hk : k < xs.length := by simpa using hj
      simp only [List.countP_cons, List.get, decide_eq_true_eq]
      by_cases hpx : x < t
      · rw [if_pos hpx]
        constructor
        · intro hlt
          exact (ih hxs k hk).mp (by omega)
        · intro hget
          have := (ih hxs k hk).mpr hget
          omega
      · have hzero : xs.countP (fun y => decide (y < t)) = 0 := by
          rw [List.countP_eq_zero]
          intro a ha
          simp only [decide_eq_true_eq]
          exact fun halt => hpx (lt_of_le_of_lt (hx a ha) halt)
        rw [if_neg hpx, hzero]
        constructor
        · omega
        · intro hget
          exact absurd ((ih hxs k hk).mpr hget) (by omega)

lemma sorted_get_mono {l : List ℚ} (h : l.Pairwise (· ≤ ·)) {i j : ℕ}
    (hij : i ≤ j) (hj : j < l.length) :
    l.get ⟨i, lt_of_le_of_lt hij hj⟩ ≤ l.get ⟨j, hj⟩ := by
  rcases Nat.lt_or_ge i j with hlt | hge
  · exact List.pairwise_iff_get.mp h ⟨i, lt_of_le_of_lt hij hj⟩ ⟨j, hj⟩ hlt
  · have : i = j := le_antisymm hij hge
    subst this
    exact le_refl _

lemma head_le_of_mem {s : List ℚ} (hs : s.Pairwise (· ≤ ·)) {x : ℚ}
    (hx : x ∈ s) (h : s ≠ []) : s.head h ≤ x := by
  rcases s with _ | ⟨y, ys⟩
  · cases hx
  · rcases List.mem_cons.mp hx with rfl | hx'
    · exact le_refl _
    · exact (List.pairwise_cons.mp hs).1 _ hx'

lemma le_getLast_of_mem {s : List ℚ} (hs : s.Pairwise (· ≤ ·)) {x : ℚ}
    (hx : x ∈ s) (h : s ≠ []) : x ≤ s.getLast h := by
  induction s with
  | nil => cases hx
  | cons y ys ih =>
    by_cases hys : ys = []
    · subst hys
      rcases List.mem_singleton.mp hx with rfl
      simp
    · rw [List.getLast_cons hys]
      rcases List.mem_cons.mp hx with rfl | hx'
      · exact le_trans ((List.pairwise_cons.mp hs).1 _ (List.getLast_mem hys))
          (le_refl _)
      · exact ih (List.pairwise_cons.mp hs).2 hx' hys

/-- Claim C9. `TaskSubsetFactory._select_task` on a non-empty catalog sorted
by utilization returns a catalog task whose utilization is closest to the
positive target; the edge case `index = 0` yields the head
(minimum-utilization task), `index = len(tasks)` yields the last
(maximum-utilization task), and in the interior the tie between the two
adjacent candidates is broken toward the later index. -/
theorem TaskSubsetFactory.selectTask_closest (tasks : List TaskInfo) (t : ℚ)
    (hne : tasks ≠ [])
    (hsort : (tasks.map TaskInfo.utilization).Pairwise (· ≤ ·))
    (ht : 0 < t) :
    ∃ τ, TaskSubsetFactory.selectTask tasks t = .ok τ ∧ τ ∈ tasks ∧
      (∀ τ' ∈ tasks, |τ.utilization - t| ≤ |τ'.utilization - t|) ∧
      (bisect_left (tasks.map TaskInfo.utilization) t = 0 → tasks.head? = some τ) ∧
      (bisect_left (tasks.map TaskInfo.utilization) t = tasks.length →
        tasks.getLast? = some τ) ∧
      (∀ (hidx0 : 0 < bisect_left (tasks.map TaskInfo.utilization) t)
        (hidx : bisect_left (tasks.map TaskInfo.utilization) t < tasks.length)
        (before after : TaskInfo),
        tasks.get? (bisect_left (tasks.map TaskInfo.utilization) t - 1) = some before →
        tasks.get? (bisect_left (tasks.map TaskInfo.utilization) t) = some after →
        |after.utilization - t| ≤ |before.utilization - t| → τ = after) := by
  have hlen0 : 0 < tasks.length := List.length_pos.mpr hne
  have humap : tasks.map TaskInfo.utilization ≠ [] := by
    intro h0
    exact hne (List.map_eq_nil.mp h0)
  have hulen : (tasks.map TaskInfo.utilization).length = tasks.length :=
    List.length_map _ _
  have key : ∀ (j : ℕ) (hj : j < tasks.length),
      (j < bisect_left (tasks.map TaskInfo.utilization) t ↔
        (tasks.get ⟨j, hj⟩).utilization < t) := by
    intro j hj
    have hj' : j < (tasks.map TaskInfo.utilization).length := by
      rw [hulen]
      exact hj
    have hiff := countP_lt_get_iff (tasks.map TaskInfo.utilization) t hsort j hj'
    rw [List.get_map] at hiff
    exact hiff
  have hidx_le : bisect_left (tasks.map TaskInfo.utilization) t ≤ tasks.length := by
    rw [bisect_left, ← hulen]
    exact List.countP_le_length _
  by_cases hcase : bisect_left (tasks.map TaskInfo.utilization) t = tasks.length
  · -- index = len(tasks): the last (maximum-utilization) task is selected
    have hall : ∀ y ∈ tasks.map TaskInfo.utilization, y < t := by
      intro y hy
      have := List.countP_eq_length.mp (by rw [← hulen] at hcase; exact hcase) y hy
      simpa using this
    have hsel : TaskSubsetFactory.selectTask tasks t = .ok (tasks.getLast hne) := by
      simp only [TaskSubsetFactory.selectTask, if_pos ht, if_pos hcase,
        List.getLast?_eq_getLast _ hne]
    refine ⟨tasks.getLast hne, hsel, List.getLast_mem hne, ?_, ?_,
      fun _ => List.getLast?_eq_getLast _ hne, ?_⟩
    · intro τ' hτ'
      have hmem' : τ'.utilization ∈ tasks.map TaskInfo.utilization :=
        List.mem_map_of_mem _ hτ'
      have hlt' : τ'.utilization < t := hall _ hmem'
      have hmemL : (tasks.getLast hne).utilization ∈ tasks.map TaskInfo.utilization :=
        List.mem_map_of_mem _ (List.getLast_mem hne)
      have hltL : (tasks.getLast hne).utilization < t := hall _ hmemL
      have hle : τ'.utilization ≤ (tasks.map TaskInfo.utilization).getLast humap :=
        le_getLast_of_mem hsort hmem' humap
      rw [List.getLast_map] at hle
      have e1 : |(tasks.getLast hne).utilization - t| =
          t - (tasks.getLast hne).utilization := by
        rw [abs_of_neg (by linarith)]
        ring
      have e2 : |τ'.utilization - t| = t - τ'.utilization := by
        rw [abs_of_neg (by linarith)]
        ring
      rw [e1, e2]
      linarith
    · intro h0
      rw [h0] at hcase
      omega
    · intro hidx0 hidx
      rw [hcase] at hidx
      omega
  · -- index < len(tasks)
    have hidxlt : bisect_left (tasks.map TaskInfo.utilization) t < tasks.length :=
      lt_of_le_of_ne hidx_le hcase
    have hA : tasks.get? (bisect_left (tasks.map TaskInfo.utilization) t) =
        some (tasks.get ⟨bisect_left (tasks.map TaskInfo.utilization) t, hidxlt⟩) :=
      List.get?_eq_get hidxlt
    have hat : t ≤ (tasks.get ⟨bisect_left (tasks.map TaskInfo.utilization) t,
        hidxlt⟩).utilization := by
      by_contra hcon
      push_neg at hcon
      have := (key _ hidxlt).mpr hcon
      omega
    by_cases h0 : bisect_left (tasks.map TaskInfo.utilization) t = 0
    · -- index = 0: tasks[-1] is read as `before`, but `after = tasks[0]` wins
      have hBlt : tasks.length - 1 < tasks.length := by omega
      have hB : tasks.get? (tasks.length - 1) =
          some (tasks.get ⟨tasks.length - 1, hBlt⟩) := List.get?_eq_get hBlt
      have hge : ∀ y ∈ tasks.map TaskInfo.utilization, t ≤ y := by
        intro y hy
        obtain ⟨⟨j, hj'⟩, hgety⟩ := List.mem_iff_get.mp hy
        have hj : j < tasks.length := by omega
        by_contra hcon
        push_neg at hcon
        rw [← hgety, List.get_map] at hcon
        have := (key j hj).mpr hcon
        omega
      have hheadle : ∀ y ∈ tasks.map TaskInfo.utilization,
          (tasks.head hne).utilization ≤ y := by
        intro y hy
        have := head_le_of_mem hsort hy humap
        rw [List.head_map] at this
        exact this
      have hget0 : tasks.get ⟨0, hlen0⟩ = tasks.head hne := List.get_mk_zero hlen0
      have hcond : |(tasks.get ⟨bisect_left (tasks.map TaskInfo.utilization) t,
            hidxlt⟩).utilization - t| ≤
          |(tasks.get ⟨tasks.length - 1, hBlt⟩).utilization - t| := by
        have hmemB : (tasks.get ⟨tasks.length - 1, hBlt⟩).utilization ∈
            tasks.map TaskInfo.utilization :=
          List.mem_map_of_mem _ (List.get_mem _ _ _)
        have hgeB := hge _ hmemB
        have hgeA := hat
        have hAhead : (tasks.get ⟨bisect_left (tasks.map TaskInfo.utilization) t,
            hidxlt⟩).utilization = (tasks.head hne).utilization := by
          have : (⟨bisect_left (tasks.map TaskInfo.utilization) t, hidxlt⟩ :
              Fin tasks.length) = ⟨0, hlen0⟩ := by
            apply Fin.ext
            exact h0
          rw [this, hget0]
        have hle' := hheadle _ hmemB
        rw [abs_of_nonneg (by linarith), abs_of_nonneg (by linarith)]
        rw [hAhead]
        linarith
      have hsel : TaskSubsetFactory.selectTask tasks t =
          .ok (tasks.get ⟨bisect_left (tasks.map TaskInfo.utilization) t, hidxlt⟩) := by
        simp only [TaskSubsetFactory.selectTask, if_pos ht, if_neg hcase, if_pos h0,
          hA, hB]
        rw [if_pos hcond]
      refine ⟨_, hsel, List.get_mem _ _ _, ?_, ?_, ?_, ?_⟩
      · intro τ' hτ'
        have hmem' : τ'.utilization ∈ tasks.map TaskInfo.utilization :=
          List.mem_map_of_mem _ hτ'
        have h1 := hge _ hmem'
        have h2 := hheadle _ hmem'
        have hAhead : (tasks.get ⟨bisect_left (tasks.map TaskInfo.utilization) t,
            hidxlt⟩).utilization = (tasks.head hne).utilization := by
          have heq : (⟨bisect_left (tasks.map TaskInfo.utilization) t, hidxlt⟩ :
              Fin tasks.length) = ⟨0, hlen0⟩ := by
            apply Fin.ext
            exact h0
          rw [heq, hget0]
        rw [abs_of_nonneg (by linarith [hat]), abs_of_nonneg (by linarith), hAhead]
        linarith
      · intro _
        rw [List.head?_eq_head hne]
        congr 1
        have heq : (⟨bisect_left (tasks.map TaskInfo.utilization) t, hidxlt⟩ :
            Fin tasks.length) = ⟨0, hlen0⟩ := by
          apply Fin.ext
          exact h0
        rw [heq, hget0]
      · intro hlen
        exact absurd hlen hcase
      · intro hidx0
        omega
    · -- 0 < index < len(tasks): the two adjacent candidates compete
      have hidx0' : 0 < bisect_left (tasks.map TaskInfo.utilization) t := by omega
      have hBlt : bisect_left (tasks.map TaskInfo.utilization) t - 1 < tasks.length := by
        omega
      have hB : tasks.get? (bisect_left (tasks.map TaskInfo.utilization) t - 1) =
          some (tasks.get ⟨bisect_left (tasks.map TaskInfo.utilization) t - 1, hBlt⟩) :=
        List.get?_eq_get hBlt
      have hbt : (tasks.get ⟨bisect_left (tasks.map TaskInfo.utilization) t - 1,
          hBlt⟩).utilization < t := (key _ hBlt).mp (by omega)
      set A := tasks.get ⟨bisect_left (tasks.map TaskInfo.utilization) t, hidxlt⟩
        with hAdef
      set B := tasks.get ⟨bisect_left (tasks.map TaskInfo.utilization) t - 1, hBlt⟩
        with hBdef
      have hclosest : ∀ τ' ∈ tasks,
          min |A.utilization - t| |B.utilization - t| ≤ |τ'.utilization - t| := by
        intro τ' hτ'
        obtain ⟨⟨j, hj⟩, hgety⟩ := List.mem_iff_get.mp hτ'
        rcases Nat.lt_or_ge j (bisect_left (tasks.map TaskInfo.utilization) t)
          with hjlt | hjge
        · -- τ' is below the insertion point: B is at least as close
          have hjt : (tasks.get ⟨j, hj⟩).utilization < t := (key j hj).mp hjlt
          have hmono : (tasks.get ⟨j, hj⟩).utilization ≤ B.utilization := by
            rw [hBdef]
            have hj'' : j ≤ bisect_left (tasks.map TaskInfo.utilization) t - 1 := by
              omega
            have := sorted_get_mono hsort (i := j)
              (j := bisect_left (tasks.map TaskInfo.utilization) t - 1) hj''
              (by rw [hulen]; exact hBlt)
            rw [List.get_map, List.get_map] at this
            exact this
          refine le_trans (min_le_right _ _) ?_
          rw [← hgety, abs_of_neg (by linarith), abs_of_neg (by linarith)]
          linarith
        · -- τ' is at or above the insertion point: A is at least as close
          have hjt : t ≤ (tasks.get ⟨j, hj⟩).utilization := by
            by_contra hcon
            push_neg at hcon
            have := (key j hj).mpr hcon
            omega
          have hmono : A.utilization ≤ (tasks.get ⟨j, hj⟩).utilization := by
            rw [hAdef]
            have := sorted_get_mono hsort
              (i := bisect_left (tasks.map TaskInfo.utilization) t) (j := j) hjge
              (by rw [hulen]; exact hj)
            rw [List.get_map, List.get_map] at this
            exact this
          refine le_trans (min_le_left _ _) ?_
          rw [← hgety, abs_of_nonneg (by linarith [hat]), abs_of_nonneg (by linarith)]
          linarith
      by_cases hcond : |A.utilization - t| ≤ |B.utilization - t|
      · have hsel : TaskSubsetFactory.selectTask tasks t = .ok A := by
          simp only [TaskSubsetFactory.selectTask, if_pos ht, if_neg hcase, if_neg h0,
            hA, hB]
          rw [if_pos hcond]
        refine ⟨A, hsel, List.get_mem _ _ _, ?_, ?_, ?_, ?_⟩
        · intro τ' hτ'
          have := hclosest τ' hτ'
          rw [min_eq_left hcond] at this
          exact this
        · intro hz
          omega
        · intro hlen
          exact absurd hlen hcase
        · intro _ _ before after hbefore hafter _
          rw [hB] at hbefore
          rw [hA] at hafter
          exact Option.some_inj.mp hafter
      · have hsel : TaskSubsetFactory.selectTask tasks t = .ok B := by
          simp only [TaskSubsetFactory.selectTask, if_pos ht, if_neg hcase, if_neg h0,
            hA, hB]
          rw [if_neg hcond]
        refine ⟨B, hsel, List.get_mem _ _ _, ?_, ?_, ?_, ?_⟩
        · intro τ' hτ'
          have := hclosest τ' hτ'
          rw [min_eq_right (le_of_not_le hcond)] at this
          exact this
        · intro hz
          omega
        · intro hlen
          exact absurd hlen hcase
        · intro _ _ before after hbefore hafter htie
          rw [hB] at hbefore
          rw [hA] at hafter
          rw [← (Option.some_inj.mp hbefore), ← (Option.some_inj.mp hafter)] at htie
          exact absurd htie hcond

/-- Claim C9, witness: for the catalog with utilizations `[1/4, 1/2]` and
target `1/3`, the selection succeeds with a catalog member of minimal
utilization distance. -/
theorem TaskSubsetFactory.selectTask_closest_witness :
    ∃ τ, TaskSubsetFactory.selectTask [⟨0, 1, 4, 4⟩, ⟨1, 1, 2, 2⟩] (1 / 3) = .ok τ ∧
      τ ∈ [(⟨0, 1, 4, 4⟩ : TaskInfo), ⟨1, 1, 2, 2⟩] ∧
      (∀ τ' ∈ [(⟨0, 1, 4, 4⟩ : TaskInfo), ⟨1, 1, 2, 2⟩],
        |τ.utilization - 1 / 3| ≤ |τ'.utilization - 1 / 3|) := by
  obtain ⟨τ, h1, h2, h3, -, -, -⟩ :=
    TaskSubsetFactory.selectTask_closest [⟨0, 1, 4, 4⟩, ⟨1, 1, 2, 2⟩] (1 / 3)
      (by simp)
      (by norm_num [TaskInfo.utilization, List.pairwise_cons])
      (by norm_num)
  exact ⟨τ, h1, h2, h3⟩

/-! ## Lemmas on the request key order and the sorted holder queue -/

lemma keyLe_iff (a b : ProcessorRequest) :
    keyLe a b ↔ a.priority < b.priority ∨ (a.priority = b.priority ∧
      (a.time < b.time ∨ (a.time = b.time ∧ ((!a.preempt) ≤ (!b.preempt))))) := by
  simp [keyLe, ProcessorRequest.lexKey, Prod.Lex.le_iff]

lemma keyLe_refl (a : ProcessorRequest) : keyLe a a := le_refl _

lemma keyLe_trans {a b c : ProcessorRequest} (h1 : keyLe a b) (h2 : keyLe b c) :
    keyLe a c := le_trans h1 h2

lemma keyLe_of_not_keyLe {a b : ProcessorRequest} (h : ¬ keyLe a b) : keyLe b a :=
  le_of_lt (not_le.mp h)

lemma append_perm (l : List ProcessorRequest) (e : ProcessorRequest) :
    (SortedQueue.append l e).Perm (e :: l) := by
  induction l with
  | nil => exact List.Perm.refl _
  | cons x xs ih =>
    unfold SortedQueue.append
    by_cases h : keyLe x e
    · rw [if_pos h]
      exact (ih.cons x).trans (List.Perm.swap _ _ _)
    · rw [if_neg h]

lemma append_sorted {l : List ProcessorRequest} (hl : l.Pairwise keyLe)
    (e : ProcessorRequest) : (SortedQueue.append l e).Pairwise keyLe := by
  induction l with
  | nil => simp [SortedQueue.append]
  | cons x xs ih =>
    obtain ⟨hx, hxs⟩ := List.pairwise_cons.mp hl
    unfold SortedQueue.append
    by_cases h : keyLe x e
    · rw [if_pos h, List.pairwise_cons]
      constructor
      · intro b hb
        rcases List.mem_cons.mp ((append_perm xs e).mem_iff.mp hb) with rfl | hbxs
        · exact h
        · exact hx b hbxs
      · exact ih hxs
    · rw [if_neg h, List.pairwise_cons]
      have he : keyLe e x := keyLe_of_not_keyLe h
      constructor
      · intro b hb
        rcases List.mem_cons.mp hb with rfl | hbxs
        · exact he
        · exact keyLe_trans he (hx b hbxs)
      · exact hl

lemma append_take_drop {l : List ProcessorRequest} (hl : l.Pairwise keyLe)
    (e : ProcessorRequest) :
    SortedQueue.append l e =
      l.take (bisect_right l e) ++ e :: l.drop (bisect_right l e) := by
  induction l with
  | nil => rfl
  | cons x xs ih =>
    obtain ⟨hx, hxs⟩ := List.pairwise_cons.mp hl
    unfold SortedQueue.append
    by_cases h : keyLe x e
    · rw [if_pos h]
      have hc : bisect_right (x :: xs) e = bisect_right xs e + 1 := by
        rw [bisect_right, bisect_right, List.countP_cons]
        simp [h]
      rw [hc, ih hxs]
      rfl
    · rw [if_neg h]
      have hc : bisect_right (x :: xs) e = 0 := by
        rw [bisect_right, List.countP_cons]
        have hxs0 : xs.countP (fun u => decide (keyLe u e)) = 0 := by
          rw [List.countP_eq_zero]
          intro u hu
          simp only [decide_eq_true_eq]
          intro hue
          exact h (keyLe_trans (hx u hu) hue)
        simp [h, hxs0]
      rw [hc]
      rfl

lemma keyLe_getLast_of_mem {s : List ProcessorRequest} (hs : s.Pairwise keyLe)
    {x : ProcessorRequest} (hx : x ∈ s) (h : s ≠ []) : keyLe x (s.getLast h) := by
  induction s with
  | nil => cases hx
  | cons y ys ih =>
    by_cases hys : ys = []
    · subst hys
      rcases List.mem_singleton.mp hx with rfl
      exact keyLe_refl _
    · rw [List.getLast_cons hys]
      rcases List.mem_cons.mp hx with rfl | hx'
      · exact (List.pairwise_cons.mp hs).1 _ (List.getLast_mem hys)
      · exact ih (List.pairwise_cons.mp hs).2 hx' hys

lemma bisect_right_dropLast {l : List ProcessorRequest} (hl : l.Pairwise keyLe)
    (e : ProcessorRequest) (hr : bisect_right l e < l.length) :
    bisect_right l.dropLast e = bisect_right l e := by
  have hne : l ≠ [] := by
    intro h0
    subst h0
    simp [bisect_right] at hr
  have hlast : ¬ keyLe (l.getLast hne) e := by
    intro hle
    have hall : ∀ u ∈ l, decide (keyLe u e) = true := by
      intro u hu
      exact decide_eq_true (keyLe_trans (keyLe_getLast_of_mem hl hu hne) hle)
    have : bisect_right l e = l.length := List.countP_eq_length.mpr hall
    omega
  have hsplit : l.dropLast ++ [l.getLast hne] = l := List.dropLast_append_getLast hne
  have : bisect_right l e = bisect_right l.dropLast e := by
    conv_lhs => rw [bisect_right, ← hsplit]
    rw [List.countP_append, bisect_right]
    simp [hlast]
  omega

lemma doPut_shape_full (capacity : ℕ) (users : List ProcessorRequest)
    (event : ProcessorRequest) (hr : bisect_right users event < capacity)
    (hfull : users.length = capacity ∧ event.preempt = true) :
    ProcessorPlatform.doPut capacity users event =
      ⟨SortedQueue.append users.dropLast event, true, false,
        users.drop (bisect_right users event)⟩ := by
  simp only [ProcessorPlatform.doPut, if_neg (not_le.mpr hr), if_pos hfull,
    List.length_dropLast]
  rw [if_pos (by omega)]

lemma doPut_shape_open (capacity : ℕ) (users : List ProcessorRequest)
    (event : ProcessorRequest) (hr : bisect_right users event < capacity)
    (hopen : users.length < capacity) :
    ProcessorPlatform.doPut capacity users event =
      ⟨SortedQueue.append users event, true, false,
        users.drop (bisect_right users event)⟩ := by
  have hnfull : ¬ (users.length = capacity ∧ event.preempt = true) := by
    rintro ⟨h1, -⟩
    omega
  simp only [ProcessorPlatform.doPut, if_neg (not_le.mpr hr), if_neg hnfull]
  rw [if_pos hopen]

lemma doPut_shape_queued (capacity : ℕ) (users : List ProcessorRequest)
    (event : ProcessorRequest) (hr : bisect_right users event < capacity)
    (hfull : users.length = capacity) (hnp : event.preempt = false) :
    ProcessorPlatform.doPut capacity users event =
      ⟨users, false, false, users.drop (bisect_right users event)⟩ := by
  have hnfull : ¬ (users.length = capacity ∧ event.preempt = true) := by
    rintro ⟨-, h2⟩
    rw [hnp] at h2
    cases h2
  simp only [ProcessorPlatform.doPut, if_neg (not_le.mpr hr), if_neg hnfull]
  rw [if_neg (by omega)]

lemma doPut_shape_reject (capacity : ℕ) (users : List ProcessorRequest)
    (event : ProcessorRequest) (hr : capacity ≤ bisect_right users event) :
    ProcessorPlatform.doPut capacity users event = ⟨users, false, true, []⟩ := by
  simp only [ProcessorPlatform.doPut, if_pos hr]

/-- Claim C5. Admission decision of `_do_put` for a request of insertion
rank `r < capacity`: unless the platform is saturated and the request does
not preempt, the request is granted and lands at rank `r`, every holder of
former rank `≥ r` shifting down by one (the holder list becomes
`base.take r ++ event :: base.drop r`); on a saturated platform with
`preempt = true` the lowest-priority (last) holder leaves the holder set
(it becomes `Preempted`: triggered but no longer in `users`); with
`preempt = false` the holder list is untouched and the request stays queued
(not granted), without stopping the put-queue scan. -/
theorem ProcessorPlatform.doPut_admission (capacity : ℕ)
    (users : List ProcessorRequest) (event : ProcessorRequest)
    (hsort : users.Pairwise keyLe)
    (hlen : users.length ≤ capacity)
    (hnd : (users.map ProcessorRequest.rid).Nodup)
    (hfresh : ∀ u ∈ users, u.rid ≠ event.rid)
    (hr : bisect_right users event < capacity) :
    ((users.length < capacity ∨ event.preempt = true) →
      (ProcessorPlatform.doPut capacity users event).granted = true ∧
      (ProcessorPlatform.doPut capacity users event).users =
        (if users.length = capacity ∧ event.preempt = true then users.dropLast
          else users).take (bisect_right users event) ++
        event :: (if users.length = capacity ∧ event.preempt = true then users.dropLast
          else users).drop (bisect_right users event)) ∧
    (users.length = capacity → event.preempt = true → ∀ h : users ≠ [],
      ∀ u ∈ (ProcessorPlatform.doPut capacity users event).users,
        u.rid ≠ (users.getLast h).rid) ∧
    (users.length = capacity → event.preempt = false →
      (ProcessorPlatform.doPut capacity users event).users = users ∧
      (ProcessorPlatform.doPut capacity users event).granted = false ∧
      (ProcessorPlatform.doPut capacity users event).stoppedScan = false) := by
  refine ⟨?_, ?_, ?_⟩
  · intro hadm
    by_cases hfull : users.length = capacity ∧ event.preempt = true
    · rw [doPut_shape_full capacity users event hr hfull, if_pos hfull]
      refine ⟨rfl, ?_⟩
      have hsort' : users.dropLast.Pairwise keyLe :=
        hsort.sublist (List.dropLast_sublist users)
      rw [append_take_drop hsort' event,
        bisect_right_dropLast hsort event (by omega)]
    · rcases hadm with hopen | hp
      · rw [doPut_shape_open capacity users event hr hopen, if_neg hfull]
        exact ⟨rfl, append_take_drop hsort event⟩
      · have hopen : users.length < capacity := by
          rcases Nat.lt_or_ge users.length capacity with h | h
          · exact h
          · exact absurd ⟨le_antisymm hlen h, hp⟩ hfull
        rw [doPut_shape_open capacity users event hr hopen, if_neg hfull]
        exact ⟨rfl, append_take_drop hsort event⟩
  · intro hfull1 hfull2 hne u hu
    rw [doPut_shape_full capacity users event hr ⟨hfull1, hfull2⟩] at hu
    have hu' : u ∈ event :: users.dropLast :=
      (append_perm users.dropLast event).mem_iff.mp hu
    have hsplitmap : users.dropLast.map ProcessorRequest.rid ++
        [(users.getLast hne).rid] = users.map ProcessorRequest.rid := by
      have hmap := congrArg (List.map ProcessorRequest.rid)
        (List.dropLast_append_getLast hne)
      rw [List.map_append] at hmap
      simpa using hmap
    have hlast_not : (users.getLast hne).rid ∉
        users.dropLast.map ProcessorRequest.rid := by
      intro hmem
      rw [← hsplitmap] at hnd
      have := (List.nodup_append.mp hnd).2.2
      exact this hmem (List.mem_singleton.mpr rfl)
    rcases List.mem_cons.mp hu' with rfl | humem
    · exact fun hcon =>
        (hfresh _ (List.getLast_mem hne)) hcon.symm
    · intro hcon
      exact hlast_not (hcon ▸ List.mem_map_of_mem _ humem)
  · intro hfull hnp
    rw [doPut_shape_queued capacity users event hr hfull hnp]
    exact ⟨rfl, rfl, rfl⟩

lemma reach_inv (capacity : ℕ) (users : List ProcessorRequest)
    (h : Reach capacity users) :
    users.length ≤ capacity ∧ users.Pairwise keyLe ∧
      (users.map ProcessorRequest.rid).Nodup := by
  induction h with
  | init => simp
  | @put users event hreach hfresh ih =>
    obtain ⟨ih1, ih2, ih3⟩ := ih
    by_cases hcap : capacity ≤ bisect_right users event
    · rw [doPut_shape_reject capacity users event hcap]
      exact ⟨ih1, ih2, ih3⟩
    · have hr : bisect_right users event < capacity := by omega
      have hfreshmap : event.rid ∉ users.map ProcessorRequest.rid := by
        intro hmem
        obtain ⟨u, hu, hurid⟩ := List.mem_map.mp hmem
        exact hfresh u hu hurid
      by_cases hfull : users.length = capacity ∧ event.preempt = true
      · rw [doPut_shape_full capacity users event hr hfull]
        have hlen1 : users.dropLast.length = users.length - 1 :=
          List.length_dropLast users
        have hperm := append_perm users.dropLast event
        refine ⟨?_, append_sorted (ih2.sublist (List.dropLast_sublist users)) event, ?_⟩
        · rw [hperm.length_eq]
          simp only [List.length_cons, hlen1]
          omega
        · rw [(hperm.map ProcessorRequest.rid).nodup_iff]
          rw [List.map_cons, List.nodup_cons]
          constructor
          · intro hmem
            exact hfreshmap
              (((List.dropLast_sublist users).map ProcessorRequest.rid).mem hmem)
          · exact ih3.sublist ((List.dropLast_sublist users).map ProcessorRequest.rid)
      · by_cases hopen : users.length < capacity
        · rw [doPut_shape_open capacity users event hr hopen]
          have hperm := append_perm users event
          refine ⟨?_, append_sorted ih2 event, ?_⟩
          · rw [hperm.length_eq]
            simp only [List.length_cons]
            omega
          · rw [(hperm.map ProcessorRequest.rid).nodup_iff, List.map_cons,
              List.nodup_cons]
            exact ⟨hfreshmap, ih3⟩
        · have hfull1 : users.length = capacity := by omega
          have hnp : event.preempt = false := by
            rcases hb : event.preempt with _ | _
            · rfl
            · exact absurd ⟨hfull1, hb⟩ hfull
          rw [doPut_shape_queued capacity users event hr hfull1 hnp]
          exact ⟨ih1, ih2, ih3⟩
  | @get users request hreach ih =>
    obtain ⟨ih1, ih2, ih3⟩ := ih
    rcases hidx : users.findIdx? (fun u => u.rid == request.rid) with _ | idx
    · simp only [ProcessorPlatform.doGet, hidx]
      exact ⟨ih1, ih2, ih3⟩
    · simp only [ProcessorPlatform.doGet, hidx]
      have hsub : List.Sublist (users.eraseP (fun u => u.rid == request.rid)) users :=
        List.eraseP_sublist users
      exact ⟨le_trans hsub.length_le ih1, ih2.sublist hsub,
        ih3.sublist (hsub.map ProcessorRequest.rid)⟩

lemma findIdx?_rid (l : List ProcessorRequest)
    (hnd : (l.map ProcessorRequest.rid).Nodup) :
    ∀ (i : ℕ) (hi : i < l.length) (s : ℕ),
      l.findIdx? (fun u => u.rid == (l.get ⟨i, hi⟩).rid) s = some (s + i) := by
  induction l with
  | nil =>
    intro i hi
    exact absurd hi (by simp)
  | cons x xs ih =>
    intro i hi s
    obtain ⟨hx_not, hxs_nd⟩ : x.rid ∉ xs.map ProcessorRequest.rid ∧
        (xs.map ProcessorRequest.rid).Nodup := by
      rw [List.map_cons, List.nodup_cons] at hnd
      exact hnd
    rcases i with _ | k
    · rw [List.findIdx?_cons, if_pos (by simp [List.get])]
      simp
    · have hk : k < xs.length := by simpa using hi
      have hget : (x :: xs).get ⟨k + 1, hi⟩ = xs.get ⟨k, hk⟩ := rfl
      rw [hget, List.findIdx?_cons]
      have hne : (x.rid == (xs.get ⟨k, hk⟩).rid) = false := by
        rw [beq_eq_false_iff_ne]
        intro hcon
        exact hx_not (hcon ▸ List.mem_map_of_mem _ (List.get_mem _ _ _))
      rw [if_neg (by rw [hne]; exact Bool.false_ne_true), ih hxs_nd k hk (s + 1)]
      congr 1
      omega

/-- Claim C6. In every simulation, every holder queue reachable from the
initial empty queue through `_do_put` and `_do_get` satisfies the resource
invariants: at most `capacity = |speed_list|` holders, holders sorted
ascending by the key `(priority, arrival_time, not preempt)`, distinct
request identities, and the effective speed of the holder at index `i` is
`speed_list[i]`. -/
theorem ProcessorPlatform.users_invariant (speed_list : List ℚ)
    (users : List ProcessorRequest) (h : Reach speed_list.length users) :
    users.length ≤ speed_list.length ∧ users.Pairwise keyLe ∧
    (users.map ProcessorRequest.rid).Nodup ∧
    ∀ (i : ℕ) (hi : i < users.length),
      ProcessorRequest.speed speed_list users (users.get ⟨i, hi⟩) =
        speed_list.get? i := by
  obtain ⟨h1, h2, h3⟩ := reach_inv _ users h
  refine ⟨h1, h2, h3, ?_⟩
  intro i hi
  unfold ProcessorRequest.speed
  rw [findIdx?_rid users h3 i hi 0]
  simp

/-- Claim C6, witness: after one grant on platform `[3, 2]` the queue holds
one request, is sorted, and its holder reads `speed_list[0]`. -/
theorem ProcessorPlatform.users_invariant_witness :
    ((ProcessorPlatform.doPut ([3, 2] : List ℚ).length []
      ⟨0, 1, 0, true⟩).users).length ≤ ([3, 2] : List ℚ).length ∧
    ((ProcessorPlatform.doPut ([3, 2] : List ℚ).length []
      ⟨0, 1, 0, true⟩).users).Pairwise keyLe ∧
    (((ProcessorPlatform.doPut ([3, 2] : List ℚ).length []
      ⟨0, 1, 0, true⟩).users).map ProcessorRequest.rid).Nodup ∧
    ∀ (i : ℕ) (hi : i < ((ProcessorPlatform.doPut ([3, 2] : List ℚ).length []
      ⟨0, 1, 0, true⟩).users).length),
      ProcessorRequest.speed [3, 2]
        ((ProcessorPlatform.doPut ([3, 2] : List ℚ).length [] ⟨0, 1, 0, true⟩).users)
        (((ProcessorPlatform.doPut ([3, 2] : List ℚ).length []
          ⟨0, 1, 0, true⟩).users).get ⟨i, hi⟩) = ([3, 2] : List ℚ).get? i :=
  ProcessorPlatform.users_invariant [3, 2] _ (Reach.put Reach.init (by simp))

/-- Claim C5, witness: on the saturated two-core queue with holders of
priorities `1` and `2`, a preempting request of priority `0` is granted and
the request of identity `1` (the last holder) leaves the holder set. -/
theorem ProcessorPlatform.doPut_admission_witness :
    (ProcessorPlatform.doPut 2 [⟨0, 1, 0, true⟩, ⟨1, 2, 0, true⟩]
      ⟨2, 0, 1, true⟩).granted = true ∧
    ∀ u ∈ (ProcessorPlatform.doPut 2 [⟨0, 1, 0, true⟩, ⟨1, 2, 0, true⟩]
      ⟨2, 0, 1, true⟩).users, u.rid ≠ 1 := by
  have hb : bisect_right [⟨0, 1, 0, true⟩, ⟨1, 2, 0, true⟩] ⟨2, 0, 1, true⟩ = 0 := by
    rw [bisect_right]
    norm_num [List.countP_cons, keyLe_iff]
  have h := ProcessorPlatform.doPut_admission 2
    [⟨0, 1, 0, true⟩, ⟨1, 2, 0, true⟩] ⟨2, 0, 1, true⟩
    (by norm_num [List.pairwise_cons, keyLe_iff])
    (by norm_num)
    (by decide)
    (by decide)
    (by rw [hb]; omega)
  refine ⟨(h.1 (Or.inr rfl)).1, ?_⟩
  intro u hu
  have := h.2.1 rfl rfl (by simp) u hu
  simpa [List.getLast] using this

/-- Claim C10. First two conjuncts: a job raises the deadline-miss interrupt
iff it completes (its remaining execution reaches zero) at an instant
strictly beyond its absolute deadline, and a job still executing when its
episodes are cut off by the horizon raises nothing. Remaining conjuncts: the
concrete task set `[(wcet 3, deadline 1, period 2)]` on the single-speed-1
platform has hyper-period `2`; its first job is granted immediately, the
next job's request is turned away without interrupting the holder, and the
only completion would happen at `t = 3 > 1` (a miss) — beyond the horizon;
hence `Simulator.run` returns `true` although the job's absolute deadline
`1` has passed inside the horizon with remaining execution `3 > 0`. -/
theorem Job.deadline_miss_iff :
    (∀ (wcet deadline acc : ℚ) (segs : List ExecSeg),
      ((activateJob wcet deadline acc segs).missRaised = true ↔
        ∃ t, (activateJob wcet deadline acc segs).endTime? = some t ∧ deadline < t)) ∧
    (∀ (wcet deadline acc : ℚ) (segs : List ExecSeg),
      (activateJob wcet deadline acc segs).endTime? = none →
      (activateJob wcet deadline acc segs).missRaised = false) ∧
    (hyperPeriod [⟨0, 3, 1, 2⟩] = 2 ∧
     activateJob 3 1 0 [⟨0, 1, none⟩] = .completed 3 true ∧
     ProcessorPlatform.doPut 1 [] ⟨0, 1, 0, true⟩ =
       ⟨[⟨0, 1, 0, true⟩], true, false, []⟩ ∧
     ProcessorPlatform.doPut 1 [⟨0, 1, 0, true⟩] ⟨1, 3, 2, true⟩ =
       ⟨[⟨0, 1, 0, true⟩], false, true, []⟩ ∧
     Simulator.run (hyperPeriod [⟨0, 3, 1, 2⟩]) (singleJobEngine 3 1 1) none = .ok true ∧
     (1 : ℚ) < ((hyperPeriod [⟨0, 3, 1, 2⟩] : ℕ) : ℚ) ∧
     0 < remaining_execution 3 0) := by
  have main : ∀ (wcet deadline acc : ℚ) (segs : List ExecSeg),
      ((activateJob wcet deadline acc segs).missRaised = true ↔
        ∃ t, (activateJob wcet deadline acc segs).endTime? = some t ∧ deadline < t) := by
    intro wcet deadline acc segs
    induction segs generalizing acc with
    | nil =>
      simp [activateJob, JobOutcome.missRaised, JobOutcome.endTime?]
    | cons seg rest ih =>
      rcases hseg : seg.interruptedAt with _ | t'
      · simp [activateJob, hseg, JobOutcome.missRaised, JobOutcome.endTime?]
      · simp only [activateJob, hseg]
        exact ih _
  have hH : hyperPeriod [(⟨0, 3, 1, 2⟩ : TaskInfo)] = 2 := by
    have hceil2 : (⌈(2 : ℚ)⌉ : ℤ) = 2 := by norm_num
    simp only [hyperPeriod, List.foldl_cons, List.foldl_nil, hceil2]
    decide
  have hre : remaining_execution 3 0 = 3 := by
    rw [remaining_execution, show (3 : ℚ) - 0 = 3 by norm_num,
      max_eq_left (by norm_num : (0 : ℚ) ≤ 3)]
  have hjob : activateJob 3 1 0 [⟨0, 1, none⟩] = .completed 3 true := by
    simp only [activateJob]
    rw [show (0 : ℚ) + remaining_execution 3 0 / 1 = 3 by rw [hre]; norm_num]
    simp only [JobOutcome.completed.injEq, decide_eq_true_eq]
    exact ⟨trivial, by norm_num⟩
  refine ⟨main, ?_, hH, hjob, ?_, ?_, ?_, ?_, ?_⟩
  · intro wcet deadline acc segs hnone
    rcases hb : (activateJob wcet deadline acc segs).missRaised with _ | _
    · rfl
    · obtain ⟨t, ht, -⟩ := (main wcet deadline acc segs).mp hb
      rw [hnone] at ht
      cases ht
  · rw [doPut_shape_open 1 [] ⟨0, 1, 0, true⟩
      (by rw [show bisect_right [] ⟨0, 1, 0, true⟩ = 0 from rfl]; omega) (by simp)]
    rfl
  · apply doPut_shape_reject
    rw [bisect_right]
    norm_num [List.countP_cons, keyLe_iff]
  · have heng : ∀ i : ℕ, i ≤ 2 → singleJobEngine 3 1 1 i = none := by
      intro i hi
      simp only [singleJobEngine, hjob]
      rw [if_neg]
      rintro ⟨h3, -⟩
      have h3' : (3 : ℕ) ≤ i := by exact_mod_cast h3
      omega
    have hsteps : Simulator.loopSteps (hyperPeriod [(⟨0, 3, 1, 2⟩ : TaskInfo)]) none = [1, 2] := by
      rw [hH]
      unfold Simulator.loopSteps Simulator.effectiveUntil
      rw [Int.ceil_natCast, Int.toNat_natCast]
      rfl
    rw [Simulator.run, hsteps]
    simp only [Simulator.runBody, heng 1 (by omega), heng 2 (by omega)]
  · rw [hH]
    norm_num
  · rw [hre]
    norm_num

/-- Claim C10, witness: the first job of the scenario, cut off by the
horizon with no completed episode, raises nothing. -/
theorem Job.deadline_miss_iff_witness :
    (activateJob 3 1 0 []).missRaised = false :=
  Job.deadline_miss_iff.2.1 3 1 0 [] rfl

end SimRT
